import Mathlib

/-!
Shallow embedding of the pension-checker validation core
(src/pension_checker/schema.py and src/pension_checker/checkers.py).

Modelling conventions:
* Python `Decimal` values (money amounts, percentages) are embedded as `Rat`,
  which gives the exact decimal arithmetic the code relies on.
* Python `date` values are embedded as a `Date` structure ordered
  lexicographically by (year, month, day), exactly as Python orders dates.
  Dates enter the checkers already parsed; `parse_date`/`parse_datetime`
  failures abort the whole document before any checker runs, so they sit
  outside the rule functions embedded here.
* The mutable per-checker accumulator `self.problems` is threaded explicitly:
  every assertion primitive takes the current accumulator and returns the new
  one, and each `check_one` rule is the function from a record to the list of
  messages it appends (the accumulator is cleared between records in
  `Checker.check`, so this is exactly the per-record message list).
* Fallible code is embedded in `Option`: `Decimal` division by zero raises in
  Python, and indexing `[0]` into an empty list raises, so the two rules that
  can do this return `Option (List String)`, `none` meaning the exception
  propagates and the whole validation of the document is abandoned.
-/

namespace Pension

/-- Allocation category enumeration, from `SugHafrasha` in schema.py
(IntEnum with values 1, 2, 3, 8, 9). -/
inductive SugHafrasha where
  | pitzuim
  | tagmulim_oved
  | tagmulim_maavid
  | kh_oved
  | kh_maavid
deriving DecidableEq, Repr

/-- Integer value of the enum member, as in schema.py. -/
def SugHafrasha.toNat : SugHafrasha → Nat
  | .pitzuim => 1
  | .tagmulim_oved => 2
  | .tagmulim_maavid => 3
  | .kh_oved => 8
  | .kh_maavid => 9

instance : ToString SugHafrasha := ⟨fun s => toString s.toNat⟩

/-- Regulatory percentage bands per category, from `HAFRASHA_RANGES_PENSION`
in schema.py; an insertion-ordered dict embedded as an association list.
The decimals 6.0, 8.33, 7.0, 6.5, 7.5 are exact rationals. -/
def HAFRASHA_RANGES_PENSION : List (SugHafrasha × Rat × Rat) :=
  [(SugHafrasha.pitzuim, ((6 : Rat), (833/100 : Rat))),
   (SugHafrasha.tagmulim_oved, ((6 : Rat), (7 : Rat))),
   (SugHafrasha.tagmulim_maavid, ((13/2 : Rat), (15/2 : Rat)))]

/-- Dict lookup `HAFRASHA_RANGES_PENSION[sug]` together with the membership
test `sug in HAFRASHA_RANGES_PENSION`. -/
def hafrashaRange (sug : SugHafrasha) : Option (Rat × Rat) :=
  (HAFRASHA_RANGES_PENSION.find? (fun p => decide (p.1 = sug))).map (fun p => p.2)

/-- Explicit-null encoding of a decoded schema element: the xmlschema decoder
yields either a plain value or the single-key nil-marker mapping that
`fix_nil` in schema.py recognises. -/
inductive Nilable (α : Type) where
  | val (a : α)
  | nil
deriving DecidableEq, Repr

/-- Embeds `fix_nil` from schema.py: the explicit nil sentinel is replaced by
the supplied default, any other element is returned unchanged. -/
def fix_nil {α : Type} (element : Nilable α) (default : α) : α :=
  match element with
  | .val a => a
  | .nil => default

/-- Calendar date as produced by `parse_date`; ordered like Python dates,
lexicographically on (year, month, day). -/
structure Date where
  year : Nat
  month : Nat
  day : Nat
deriving DecidableEq, Repr

/-- Lexicographic strict order on dates, matching Python date comparison. -/
def Date.ltProp (a b : Date) : Prop :=
  a.year < b.year ∨ (a.year = b.year ∧
    (a.month < b.month ∨ (a.month = b.month ∧ a.day < b.day)))

instance : LT Date := ⟨Date.ltProp⟩

instance : LE Date := ⟨fun a b => Date.ltProp a b ∨ a = b⟩

instance (a b : Date) : Decidable (a < b) :=
  show Decidable (a.year < b.year ∨ (a.year = b.year ∧
    (a.month < b.month ∨ (a.month = b.month ∧ a.day < b.day)))) from inferInstance

instance (a b : Date) : Decidable (a ≤ b) :=
  show Decidable ((a.year < b.year ∨ (a.year = b.year ∧
    (a.month < b.month ∨ (a.month = b.month ∧ a.day < b.day)))) ∨ a = b) from inferInstance

instance : ToString Date :=
  ⟨fun d => toString d.year ++ "-" ++ toString d.month ++ "-" ++ toString d.day⟩

/-- Date-time as produced by `parse_datetime`; the checkers only ever use the
`.date()` projection of the header timestamp. -/
structure DateTime where
  date : Date
  hour : Nat
  minute : Nat
  second : Nat
deriving DecidableEq, Repr

/-! ## Assertion message formatting

Each formatter mirrors the f-string of the corresponding assertion primitive
in checkers.py (some of the source f-strings lack a closing parenthesis;
that is mirrored faithfully since it is part of the produced message). -/

def fmtEqFail {α : Type} [ToString α] (message : String) (left right : α) : String :=
  message ++ " (" ++ toString left ++ " != " ++ toString right ++ ")"

def fmtBelow {α : Type} [ToString α] (message : String) (value low : α) : String :=
  message ++ " (" ++ toString value ++ " < " ++ toString low

def fmtAbove {α : Type} [ToString α] (message : String) (value high : α) : String :=
  message ++ " (" ++ toString value ++ " > " ++ toString high

def fmtNotGte {α : Type} [ToString α] (message : String) (left right : α) : String :=
  message ++ " (" ++ toString left ++ " < " ++ toString right

def fmtNotGt {α : Type} [ToString α] (message : String) (left right : α) : String :=
  message ++ " (" ++ toString left ++ " <= " ++ toString right

def fmtNotLte {α : Type} [ToString α] (message : String) (left right : α) : String :=
  message ++ " (" ++ toString left ++ " > " ++ toString right

def fmtNotLt {α : Type} [ToString α] (message : String) (left right : α) : String :=
  message ++ " (" ++ toString left ++ " >= " ++ toString right

/-! ## Assertion primitives (`Checker.assert_*` and `Checker.report`)

The accumulator `self.problems` is the explicit first argument and the new
accumulator is the result. -/

def report (problems : List String) (message : String) : List String :=
  problems ++ [message]

def assert_ (problems : List String) (check : Bool) (message : String) : List String :=
  if check then problems else report problems message

def assert_eq {α : Type} [DecidableEq α] [ToString α]
    (problems : List String) (left right : α) (message : String) : List String :=
  if left ≠ right then report problems (fmtEqFail message left right) else problems

def assert_range {α : Type} [LT α] [∀ a b : α, Decidable (a < b)] [ToString α]
    (problems : List String) (min value max : α) (message : String) : List String :=
  if value < min then report problems (fmtBelow message value min)
  else if max < value then report problems (fmtAbove message value max)
  else problems

def assert_gte {α : Type} [LT α] [∀ a b : α, Decidable (a < b)] [ToString α]
    (problems : List String) (left right : α) (message : String) : List String :=
  if left < right then report problems (fmtNotGte message left right) else problems

def assert_gt {α : Type} [LE α] [∀ a b : α, Decidable (a ≤ b)] [ToString α]
    (problems : List String) (left right : α) (message : String) : List String :=
  if left ≤ right then report problems (fmtNotGt message left right) else problems

def assert_lte {α : Type} [LT α] [∀ a b : α, Decidable (a < b)] [ToString α]
    (problems : List String) (left right : α) (message : String) : List String :=
  if right < left then report problems (fmtNotLte message left right) else problems

def assert_lt {α : Type} [LE α] [∀ a b : α, Decidable (a ≤ b)] [ToString α]
    (problems : List String) (left right : α) (message : String) : List String :=
  if right ≤ left then report problems (fmtNotLt message left right) else problems

/-! ## Decoded document data model

One structure per repeated group the checkers touch, fields named after the
decoded element keys. -/

/-- One itemized line `PerutHafkadaAchrona` of the most recent contribution. -/
structure PerutHafkadaAchrona where
  schum_hafkada_sheshulam : Rat
  sachar_beramat_hafkada : Rat
deriving DecidableEq, Repr

/-- One `PerutPirteiHafkadaAchrona` record: gross total, net total and the
itemized lines of the most recent contribution. -/
structure PerutPirteiHafkadaAchrona where
  total_hafkada : Rat
  total_hafkada_achrona : Rat
  perut_hafkada_achrona : List PerutHafkadaAchrona
deriving DecidableEq, Repr

/-- One itemized year-to-date entry of `PerutHafkadotMetchilatShana`. -/
structure Hafkada where
  chodesh_sachar : Nat
  sug_hafrasha : SugHafrasha
  schum_hafkada_sheshulam : Rat
  sachar_beramat_hafkada : Rat
deriving DecidableEq, Repr

/-- The `HafkadotShnatiyot` block of reported yearly totals. -/
structure HafkadotShnatiyot where
  total_hafkadot_pitzuim_shana_nochechit : Rat
  total_hafkadot_oved_tagmulim_shana_nochechit : Rat
  total_hafkadot_maavid_tagmulim_shana_nochechit : Rat
deriving DecidableEq, Repr

/-- One declared-percentage entry of `PerutHafrashotLePolisa`. -/
structure HafrashaEntry where
  sug_hafrasha : SugHafrasha
  achuz_hafrasha : Rat
deriving DecidableEq, Repr

/-- The `HotzaotBafoalLehodeshDivoach` expenses block; both deduction fields
may carry the schema's explicit nil sentinel. -/
structure HotzaotBafoalLehodeshDivoach where
  sach_dmei_bituah_shenigboo : Nilable Rat
  total_dmei_nihul_hafkada : Nilable Rat
deriving DecidableEq, Repr

/-- One contribution-budget block `PirteiTaktziv`. -/
structure PirteiTaktziv where
  perut_hafkadot_metchilat_shana : List Hafkada
  hafkadot_shnatiyot : HafkadotShnatiyot
  perut_hafrashot_le_polisa : List HafrashaEntry
  pirtei_hafkada_achrona : List PerutPirteiHafkadaAchrona
  hotzaot : HotzaotBafoalLehodeshDivoach
deriving DecidableEq, Repr

/-- One policy record `HeshbonOPolisa`. -/
structure HeshbonOPolisa where
  taarich_nechonut : Date
  taarich_hitztarfut_mutzar : Date
  pirtei_taktziv : List PirteiTaktziv
deriving DecidableEq, Repr

/-- The whole decoded document: the `KoteretKovetz` header fields, the
customer block's birth date and the policy records. -/
structure Document where
  sug_mimshak : String
  taarich_bitzua : DateTime
  taarich_leyda : Date
  heshbonot : List HeshbonOPolisa
deriving DecidableEq, Repr

/-! ## Rule messages (the Hebrew message texts from checkers.py) -/

def lastSumMsg : String := "סכום פירוט הפקדות אחרונות שונה מסך הפקדה אחרונה"

def lastSalariesMsg (salaries : List Rat) : String :=
  "שכר לא אחיד בהפקדה אחרונה: " ++ String.intercalate "," (salaries.map toString)

def ytdMonthMsg (month : Nat) (salaries : List Rat) : String :=
  "שכר לא אחיד בהפקדה מחודש שכר " ++ toString month ++ ": "
    ++ String.intercalate "," (salaries.map toString)

def msgPitzuim : String := "סכום הפקדות פיצויים מתחילת השנה שונה מהפקדות שנתיות"

def msgOved : String := "סכום הפקדות תגמולי עובד מתחילת השנה שונה מהפקדות שנתיות"

def msgMaavid : String := "סכום הפקדות תגמולי מעביד מתחילת השנה שונה מהפקדות שנתיות"

def dupSugMsg (sug : SugHafrasha) : String :=
  "סוג הפרשה " ++ toString sug ++ " מופיע יותר מפעם אחת"

def missingSugMsg (sug : SugHafrasha) : String :=
  "חסר סוג הפרשה " ++ toString sug

def bandMsg (sug : SugHafrasha) : String :=
  "סוג ההפרשה " ++ toString sug ++ " מחוץ לטווח המותר"

def ytdBandMsg (sug : SugHafrasha) : String :=
  "סכום ההפרשה כאחוז מהשכר " ++ toString sug ++ " מחוץ לטווח המותר"

def netGrossMsg (neto bruto insurance_premium dmei_nihul_hafkada : Rat) : String :=
  " סכום הפקדה נטו לא מתאים לברוטו - הוצאות ביטוח - דמי ניהול מהפקדה("
    ++ toString neto ++ " != " ++ toString bruto ++ " - "
    ++ toString insurance_premium ++ " - " ++ toString dmei_nihul_hafkada ++ " "

def nechonutMsg : String := "תאריך נכונות אחרי תאריך ביצוע "

def joinMsg : String := "תאריך הצטרפות לפני תאריך לידה"

/-! ## Rule functions (`check_one` of each concrete checker)

Each is the list of messages the rule appends for one record; the two rules
that can raise a Python exception return `Option`. -/

/-- Rule of `CheckLastHafkada`: the itemized amounts of the most recent
contribution must sum to its reported total, and all itemized lines must
share one salary figure (the Python set of salaries is embedded as `dedup`
of the mapped list; only its size and elements matter). -/
def checkLastHafkada_one (tree : PerutPirteiHafkadaAchrona) : List String :=
  let last_total := tree.total_hafkada
  let last_perut := tree.perut_hafkada_achrona
  let problems :=
    assert_eq [] (last_perut.foldl (fun acc x => acc + x.schum_hafkada_sheshulam) 0)
      last_total lastSumMsg
  let salaries := (last_perut.map (fun x => x.sachar_beramat_hafkada)).dedup
  assert_ problems (decide (salaries.length = 1)) (lastSalariesMsg salaries)

/-- Insertion into a sorted list of months; used to model Python's stable
`sorted` + `groupby` iteration of salary months in ascending order. -/
def insertSorted (n : Nat) : List Nat → List Nat
  | [] => [n]
  | m :: rest => if n ≤ m then n :: m :: rest else m :: insertSorted n rest

/-- Ascending sort of the distinct salary months. -/
def sortNat (l : List Nat) : List Nat := l.foldr insertSorted []

/-- Rule of `CheckHafkadotYtd`: year-to-date entries grouped by salary month
must have a uniform salary per month.  `sorted` + `groupby` is embedded as
iterating the distinct months in ascending order and filtering the group
(stability of Python's sort makes the two presentations agree). -/
def checkHafkadotYtd_one (tree : PirteiTaktziv) : List String :=
  let hafkadot := tree.perut_hafkadot_metchilat_shana
  let months := sortNat (hafkadot.map (fun x => x.chodesh_sachar)).dedup
  months.foldl
    (fun problems month =>
      let group := hafkadot.filter (fun x => decide (x.chodesh_sachar = month))
      let salaries := (group.map (fun x => x.sachar_beramat_hafkada)).dedup
      assert_ problems (decide (salaries.length = 1)) (ytdMonthMsg month salaries))
    []

/-- The `defaultdict(Decimal)` of per-category sums built by
`CheckHafkadotYtdTotal.check_one`, read at one category: left fold of the
amounts of the entries carrying that category, starting from 0. -/
def sumBySug (hafkadot : List Hafkada) (sug : SugHafrasha) : Rat :=
  hafkadot.foldl
    (fun acc h => if h.sug_hafrasha = sug then acc + h.schum_hafkada_sheshulam else acc) 0

/-- Rule of `CheckHafkadotYtdTotal`: itemized year-to-date amounts summed by
category must equal the three reported yearly totals. -/
def checkHafkadotYtdTotal_one (tree : PirteiTaktziv) : List String :=
  let sums := sumBySug tree.perut_hafkadot_metchilat_shana
  let totals := tree.hafkadot_shnatiyot
  let problems :=
    assert_eq [] (sums SugHafrasha.pitzuim)
      totals.total_hafkadot_pitzuim_shana_nochechit msgPitzuim
  let problems :=
    assert_eq problems (sums SugHafrasha.tagmulim_oved)
      totals.total_hafkadot_oved_tagmulim_shana_nochechit msgOved
  assert_eq problems (sums SugHafrasha.tagmulim_maavid)
    totals.total_hafkadot_maavid_tagmulim_shana_nochechit msgMaavid

/-- First loop of `CheckHafrashotSize.check_one`: walks the declared
percentage entries, reporting a duplicate for a category already recorded and
recording (overwriting) the category's percentage in the dict. -/
def hafrashotLoop (hafrashot_percentages : SugHafrasha → Option Rat)
    (problems : List String) :
    List HafrashaEntry → (SugHafrasha → Option Rat) × List String
  | [] => (hafrashot_percentages, problems)
  | p :: rest =>
    let sug := p.sug_hafrasha
    let problems := assert_ problems (hafrashot_percentages sug).isNone (dupSugMsg sug)
    hafrashotLoop
      (fun s => if s = sug then some p.achuz_hafrasha else hafrashot_percentages s)
      problems rest

/-- The dict of declared percentages after the first loop (last value wins,
as in a Python dict). -/
def hafrashotPercentages (entries : List HafrashaEntry) : SugHafrasha → Option Rat :=
  (hafrashotLoop (fun _ => none) [] entries).1

/-- Second loop of `CheckHafrashotSize.check_one`: for each regulated
category in table order, report it as missing when undeclared, otherwise
range-check the declared percentage against the band. -/
def rangeLoop (hafrashot_percentages : SugHafrasha → Option Rat)
    (problems : List String) : List (SugHafrasha × Rat × Rat) → List String
  | [] => problems
  | (sug, sug_min, sug_max) :: rest =>
    match hafrashot_percentages sug with
    | none => rangeLoop hafrashot_percentages (report problems (missingSugMsg sug)) rest
    | some v =>
      rangeLoop hafrashot_percentages
        (assert_range problems sug_min v sug_max (bandMsg sug)) rest

/-- Rule of `CheckHafrashotSize`: duplicate scan followed by the per-band
scan of `HAFRASHA_RANGES_PENSION`. -/
def checkHafrashotSize_one (tree : PirteiTaktziv) : List String :=
  let st := hafrashotLoop (fun _ => none) [] tree.perut_hafrashot_le_polisa
  rangeLoop st.1 st.2 HAFRASHA_RANGES_PENSION

/-- Rule of `CheckHafrashotSizeInHafkadotYtd`: for an entry whose category
has a regulated band, the amount as a percentage of salary must lie in the
band.  The unguarded `Decimal` division `amount / salary` raises on a zero
salary; that exception is embedded as `none`. -/
def checkHafrashotSizeInHafkadotYtd_one (tree : Hafkada) : Option (List String) :=
  match hafrashaRange tree.sug_hafrasha with
  | none => some []
  | some (sug_min, sug_max) =>
    let salary := tree.sachar_beramat_hafkada
    let hafkada_schum := tree.schum_hafkada_sheshulam
    if salary = 0 then none
    else
      let percentage := hafkada_schum / salary * 100
      some (assert_range [] sug_min percentage sug_max (ytdBandMsg tree.sug_hafrasha))

/-- Rule of `CheckTotalHafkadaParts`: the net amount of the first
most-recent-contribution record must equal gross minus the two nil-normalized
deductions.  Indexing `[0]` into an empty list raises; embedded as `none`. -/
def checkTotalHafkadaParts_one (tree : PirteiTaktziv) : Option (List String) :=
  match tree.pirtei_hafkada_achrona with
  | [] => none
  | last_hafkada :: _ =>
    let bruto := last_hafkada.total_hafkada
    let neto := last_hafkada.total_hafkada_achrona
    let insurance_premium := fix_nil tree.hotzaot.sach_dmei_bituah_shenigboo 0
    let dmei_nihul_hafkada := fix_nil tree.hotzaot.total_dmei_nihul_hafkada 0
    some (assert_ []
      (decide (neto = bruto - insurance_premium - dmei_nihul_hafkada))
      (netGrossMsg neto bruto insurance_premium dmei_nihul_hafkada))

/-- Rule of `CheckNechonutDate`: the policy's data-as-of date must not be
after the date part of the header's execution timestamp. -/
def checkNechonutDate_one (bitzua_date : Date) (tree : HeshbonOPolisa) : List String :=
  assert_lte [] tree.taarich_nechonut bitzua_date nechonutMsg

/-- Rule of `CheckJoinDate`: the enrollment date must be strictly after the
customer's birth date (read from the sibling customer block). -/
def checkJoinDate_one (birthday : Date) (tree : HeshbonOPolisa) : List String :=
  let join_day := tree.taarich_hitztarfut_mutzar
  assert_gt [] join_day birthday joinMsg

/-! ## Checker framework (`Checker.check` and `Checker.all_checks`) -/

/-- A reported problem: `(anchor_path, record_index, message)`. -/
abbrev Problem := String × Nat × String

/-- The traversal loop of `Checker.check`: iterate the records of the anchor
path in order; for record `idx` run the rule, tag its drained messages with
`(anchor, idx, ·)`, clear the accumulator and continue.  A rule that raises
(`none`) aborts the whole run. -/
def checkRunF {α : Type} (anchor : String) (rule : α → Option (List String)) :
    List α → Nat → Option (List Problem)
  | [], _ => some []
  | tree :: rest, idx =>
    match rule tree with
    | none => none
    | some msgs =>
      match checkRunF anchor rule rest (idx + 1) with
      | none => none
      | some results => some ((msgs.map (fun m => (anchor, idx, m))) ++ results)

/-- Anchor path of `CheckLastHafkada`. -/
def rootPathLastHafkada : String :=
  "YeshutYatzran/Mutzarim/Mutzar/HeshbonotOPolisot/HeshbonOPolisa/PirteiTaktziv/PirteiHafkadaAchrona/PerutPirteiHafkadaAchrona"

/-- Anchor path shared by the four contribution-budget checkers. -/
def rootPathTaktziv : String :=
  "YeshutYatzran/Mutzarim/Mutzar/HeshbonotOPolisot/HeshbonOPolisa/PirteiTaktziv"

/-- Anchor path of `CheckHafrashotSizeInHafkadotYtd`. -/
def rootPathHafkadotYtd : String :=
  "YeshutYatzran/Mutzarim/Mutzar/HeshbonotOPolisot/HeshbonOPolisa/PirteiTaktziv/PerutHafkadotMetchilatShana"

/-- Anchor path of the two policy-record checkers. -/
def rootPathPolisa : String :=
  "YeshutYatzran/Mutzarim/Mutzar/HeshbonotOPolisot/HeshbonOPolisa"

/-- Path resolution of the repeated `PirteiTaktziv` group (the decoder
flattens nested repeated groups into one sequence). -/
def Document.taktzivim (doc : Document) : List PirteiTaktziv :=
  doc.heshbonot.flatMap (fun h => h.pirtei_taktziv)

/-- Path resolution of the repeated `PerutPirteiHafkadaAchrona` group. -/
def Document.lastHafkadaRecords (doc : Document) : List PerutPirteiHafkadaAchrona :=
  doc.taktzivim.flatMap (fun t => t.pirtei_hafkada_achrona)

/-- Path resolution of the repeated `PerutHafkadotMetchilatShana` group. -/
def Document.hafkadotYtdRecords (doc : Document) : List Hafkada :=
  doc.taktzivim.flatMap (fun t => t.perut_hafkadot_metchilat_shana)

/-- `CheckLastHafkada().check()`. -/
def runCheckLastHafkada (doc : Document) : Option (List Problem) :=
  checkRunF rootPathLastHafkada (fun t => some (checkLastHafkada_one t))
    doc.lastHafkadaRecords 0

/-- `CheckHafkadotYtd().check()`. -/
def runCheckHafkadotYtd (doc : Document) : Option (List Problem) :=
  checkRunF rootPathTaktziv (fun t => some (checkHafkadotYtd_one t)) doc.taktzivim 0

/-- `CheckHafkadotYtdTotal().check()`. -/
def runCheckHafkadotYtdTotal (doc : Document) : Option (List Problem) :=
  checkRunF rootPathTaktziv (fun t => some (checkHafkadotYtdTotal_one t)) doc.taktzivim 0

/-- `CheckHafrashotSize().check()`. -/
def runCheckHafrashotSize (doc : Document) : Option (List Problem) :=
  checkRunF rootPathTaktziv (fun t => some (checkHafrashotSize_one t)) doc.taktzivim 0

/-- `CheckHafrashotSizeInHafkadotYtd().check()`. -/
def runCheckHafrashotSizeInHafkadotYtd (doc : Document) : Option (List Problem) :=
  checkRunF rootPathHafkadotYtd checkHafrashotSizeInHafkadotYtd_one
    doc.hafkadotYtdRecords 0

/-- `CheckTotalHafkadaParts().check()`. -/
def runCheckTotalHafkadaParts (doc : Document) : Option (List Problem) :=
  checkRunF rootPathTaktziv checkTotalHafkadaParts_one doc.taktzivim 0

/-- `CheckNechonutDate().check()`; the rule reads the cached header date. -/
def runCheckNechonutDate (doc : Document) : Option (List Problem) :=
  checkRunF rootPathPolisa
    (fun t => some (checkNechonutDate_one doc.taarich_bitzua.date t)) doc.heshbonot 0

/-- `CheckJoinDate().check()`; the rule reads the customer block's birth
date resolved from the document. -/
def runCheckJoinDate (doc : Document) : Option (List Problem) :=
  checkRunF rootPathPolisa
    (fun t => some (checkJoinDate_one doc.taarich_leyda t)) doc.heshbonot 0

/-- `Checker.all_checks`: run every registered checker in registration
(class definition) order and concatenate the result lists; an exception in
any checker abandons the whole document. -/
def all_checks (doc : Document) : Option (List Problem) :=
  (runCheckLastHafkada doc).bind fun r1 =>
  (runCheckHafkadotYtd doc).bind fun r2 =>
  (runCheckHafkadotYtdTotal doc).bind fun r3 =>
  (runCheckHafrashotSize doc).bind fun r4 =>
  (runCheckHafrashotSizeInHafkadotYtd doc).bind fun r5 =>
  (runCheckTotalHafkadaParts doc).bind fun r6 =>
  (runCheckNechonutDate doc).bind fun r7 =>
  (runCheckJoinDate doc).bind fun r8 =>
  some (r1 ++ r2 ++ r3 ++ r4 ++ r5 ++ r6 ++ r7 ++ r8)

/-! ## Specification-side vocabulary used by the theorems -/

/-- Number of declared-percentage entries carrying a given category. -/
def countSug (sug : SugHafrasha) : List HafrashaEntry → Nat
  | [] => 0
  | p :: rest => (if p.sug_hafrasha = sug then 1 else 0) + countSug sug rest

/-- Perturbs the amount of the year-to-date entry at position `k` by `d`
(models the spec's experiment of changing one itemized amount). -/
def perturbAmount : List Hafkada → Nat → Rat → List Hafkada
  | [], _, _ => []
  | x :: rest, 0, d =>
    { x with schum_hafkada_sheshulam := x.schum_hafkada_sheshulam + d } :: rest
  | x :: rest, Nat.succ k, d => x :: perturbAmount rest k d

/-- The contribution-budget record with one itemized amount perturbed. -/
def perturbTaktziv (tree : PirteiTaktziv) (k : Nat) (d : Rat) : PirteiTaktziv :=
  { tree with
      perut_hafkadot_metchilat_shana :=
        perturbAmount tree.perut_hafkadot_metchilat_shana k d }

/-- Problems the Year-to-Date Totals checker produces after perturbing (by
`d`, starting from a reconciled record) one entry of the given category: the
single message naming the corresponding total for the three categories the
totals track, and no message for the two health-fund categories. -/
def perturbedProblems (sug : SugHafrasha) (d : Rat) (totals : HafkadotShnatiyot) :
    List String :=
  match sug with
  | .pitzuim =>
    [fmtEqFail msgPitzuim (totals.total_hafkadot_pitzuim_shana_nochechit + d)
      totals.total_hafkadot_pitzuim_shana_nochechit]
  | .tagmulim_oved =>
    [fmtEqFail msgOved (totals.total_hafkadot_oved_tagmulim_shana_nochechit + d)
      totals.total_hafkadot_oved_tagmulim_shana_nochechit]
  | .tagmulim_maavid =>
    [fmtEqFail msgMaavid (totals.total_hafkadot_maavid_tagmulim_shana_nochechit + d)
      totals.total_hafkadot_maavid_tagmulim_shana_nochechit]
  | .kh_oved => []
  | .kh_maavid => []

/-- Record-index ordering between two problems. -/
def recordOrder (p q : Problem) : Prop := p.2.1 ≤ q.2.1

/-! ## Concrete test fixtures (from the spec's testable properties) -/

/-- Budget record declaring severance 7.0, employee 6.5, employer 7.0. -/
def exHafrashotOk : PirteiTaktziv :=
  ⟨[], ⟨0, 0, 0⟩,
   [⟨.pitzuim, 7⟩, ⟨.tagmulim_oved, 13/2⟩, ⟨.tagmulim_maavid, 7⟩], [], ⟨.nil, .nil⟩⟩

/-- Same record with severance changed to 9.0. -/
def exHafrashotBad : PirteiTaktziv :=
  ⟨[], ⟨0, 0, 0⟩,
   [⟨.pitzuim, 9⟩, ⟨.tagmulim_oved, 13/2⟩, ⟨.tagmulim_maavid, 7⟩], [], ⟨.nil, .nil⟩⟩

/-- Budget record declaring the severance percentage twice. -/
def exHafrashotDup : PirteiTaktziv :=
  ⟨[], ⟨0, 0, 0⟩, [⟨.pitzuim, 7⟩, ⟨.pitzuim, 7⟩], [], ⟨.nil, .nil⟩⟩

/-- Budget record with gross 1000, net 930, insurance 50, management fee 20. -/
def exNet930 : PirteiTaktziv :=
  ⟨[], ⟨0, 0, 0⟩, [], [⟨1000, 930, []⟩], ⟨.val 50, .val 20⟩⟩

/-- Same record with net 900. -/
def exNet900 : PirteiTaktziv :=
  ⟨[], ⟨0, 0, 0⟩, [], [⟨1000, 900, []⟩], ⟨.val 50, .val 20⟩⟩

/-- Reconciled budget record whose only itemized year-to-date entry carries
the health-fund employee category (8), which none of the three reported
totals tracks. -/
def exKhTree : PirteiTaktziv :=
  ⟨[⟨1, .kh_oved, 5, 1000⟩], ⟨0, 0, 0⟩, [], [], ⟨.nil, .nil⟩⟩

/-- Reconciled budget record whose only itemized year-to-date entry carries
the severance category. -/
def exPitzuimTree : PirteiTaktziv :=
  ⟨[⟨1, .pitzuim, 5, 1000⟩], ⟨5, 0, 0⟩, [], [], ⟨.nil, .nil⟩⟩

/-- A decoded document with no policy records at all. -/
def emptyDoc : Document :=
  ⟨"", ⟨⟨2024, 1, 1⟩, 0, 0, 0⟩, ⟨1990, 1, 1⟩, []⟩

/-! ## Helper lemmas about the assertion primitives -/

/-- Append form of the generic boolean assertion. -/
theorem assert_spec (problems : List String) (check : Bool) (message : String) :
    assert_ problems check message = problems ++ (if check then [] else [message]) := by
  cases check <;> simp [assert_, report]

/-- Append form of the equality assertion. -/
theorem assert_eq_spec {α : Type} [DecidableEq α] [ToString α]
    (problems : List String) (left right : α) (message : String) :
    assert_eq problems left right message
      = problems ++ (if left = right then [] else [fmtEqFail message left right]) := by
  by_cases h : left = right <;> simp [assert_eq, report, h]

/-- Append form of the range assertion. -/
theorem assert_range_spec {α : Type} [LT α] [∀ a b : α, Decidable (a < b)] [ToString α]
    (problems : List String) (min value max : α) (message : String) :
    assert_range problems min value max message
      = problems ++ (if value < min then [fmtBelow message value min]
          else if max < value then [fmtAbove message value max] else []) := by
  by_cases h1 : value < min
  · simp [assert_range, report, h1]
  · by_cases h2 : max < value <;> simp [assert_range, report, h1, h2]

/-- Append form of the greater-than assertion. -/
theorem assert_gt_spec {α : Type} [LE α] [∀ a b : α, Decidable (a ≤ b)] [ToString α]
    (problems : List String) (left right : α) (message : String) :
    assert_gt problems left right message
      = problems ++ (if left ≤ right then [fmtNotGt message left right] else []) := by
  by_cases h : left ≤ right <;> simp [assert_gt, report, h]

/-- Append form of the greater-or-equal assertion. -/
theorem assert_gte_spec {α : Type} [LT α] [∀ a b : α, Decidable (a < b)] [ToString α]
    (problems : List String) (left right : α) (message : String) :
    assert_gte problems left right message
      = problems ++ (if left < right then [fmtNotGte message left right] else []) := by
  by_cases h : left < right <;> simp [assert_gte, report, h]

/-- Append form of the less-than assertion. -/
theorem assert_lt_spec {α : Type} [LE α] [∀ a b : α, Decidable (a ≤ b)] [ToString α]
    (problems : List String) (left right : α) (message : String) :
    assert_lt problems left right message
      = problems ++ (if right ≤ left then [fmtNotLt message left right] else []) := by
  by_cases h : right ≤ left <;> simp [assert_lt, report, h]

/-- Append form of the less-or-equal assertion. -/
theorem assert_lte_spec {α : Type} [LT α] [∀ a b : α, Decidable (a < b)] [ToString α]
    (problems : List String) (left right : α) (message : String) :
    assert_lte problems left right message
      = problems ++ (if right < left then [fmtNotLte message left right] else []) := by
  by_cases h : right < left <;> simp [assert_lte, report, h]

/-- Totality of the date order: not strictly before is the reverse of
less-or-equal, as for Python dates. -/
theorem date_not_lt (a b : Date) : ¬ a < b ↔ b ≤ a := by
  obtain ⟨y1, m1, d1⟩ := a
  obtain ⟨y2, m2, d2⟩ := b
  show ¬ Date.ltProp ⟨y1, m1, d1⟩ ⟨y2, m2, d2⟩ ↔
    (Date.ltProp ⟨y2, m2, d2⟩ ⟨y1, m1, d1⟩ ∨ (⟨y2, m2, d2⟩ : Date) = ⟨y1, m1, d1⟩)
  simp only [Date.ltProp, Date.mk.injEq]
  omega

/-- C6. Each assertion primitive (generic boolean, equality, numeric range,
greater-than, greater-or-equal, less-than, less-or-equal) leaves the
accumulated problem list as a prefix of its result and appends exactly one
formatted message when its condition is violated, and nothing otherwise: no
detected violation is dropped and none produces more than one Problem. -/
theorem assertion_primitives_exact :
    (∀ (problems : List String) (check : Bool) (message : String),
      assert_ problems check message
        = problems ++ (if check then [] else [message])) ∧
    (∀ (problems : List String) (left right : Rat) (message : String),
      assert_eq problems left right message
        = problems ++ (if left = right then [] else [fmtEqFail message left right])) ∧
    (∀ (problems : List String) (min value max : Rat) (message : String),
      assert_range problems min value max message
        = problems ++ (if value < min then [fmtBelow message value min]
            else if max < value then [fmtAbove message value max] else [])) ∧
    (∀ (problems : List String) (left right : Rat) (message : String),
      assert_gt problems left right message
        = problems ++ (if left ≤ right then [fmtNotGt message left right] else [])) ∧
    (∀ (problems : List String) (left right : Rat) (message : String),
      assert_gte problems left right message
        = problems ++ (if left < right then [fmtNotGte message left right] else [])) ∧
    (∀ (problems : List String) (left right : Rat) (message : String),
      assert_lt problems left right message
        = problems ++ (if right ≤ left then [fmtNotLt message left right] else [])) ∧
    (∀ (problems : List String) (left right : Rat) (message : String),
      assert_lte problems left right message
        = problems ++ (if right < left then [fmtNotLte message left right] else [])) :=
  ⟨assert_spec, fun p l r m => assert_eq_spec p l r m,
   fun p mn v mx m => assert_range_spec p mn v mx m,
   fun p l r m => assert_gt_spec p l r m,
   fun p l r m => assert_gte_spec p l r m,
   fun p l r m => assert_lt_spec p l r m,
   fun p l r m => assert_lte_spec p l r m⟩

/-- C7. A checker whose anchor path resolves to an empty sequence of records
returns the empty result list: zero Problems and no error. -/
theorem checker_empty_records :
    ∀ (α : Type) (anchor : String) (rule : α → Option (List String)),
      checkRunF anchor rule [] 0 = some [] :=
  fun _ _ _ => rfl

/-- C4. The Enrollment-Date Ordering rule reports a Problem exactly when the
enrollment date is not strictly after the birth date: its result is empty
when the birth date is strictly before the enrollment date, and is the
single ordering Problem otherwise.  In particular, with birth date
1990-01-01, enrollment date 1990-01-01 yields one Problem and enrollment
date 1990-01-02 yields none. -/
theorem join_date_strictly_after :
    (∀ (birthday : Date) (tree : HeshbonOPolisa),
      checkJoinDate_one birthday tree =
        if birthday < tree.taarich_hitztarfut_mutzar then []
        else [fmtNotGt joinMsg tree.taarich_hitztarfut_mutzar birthday]) ∧
    checkJoinDate_one ⟨1990, 1, 1⟩ ⟨⟨1990, 1, 1⟩, ⟨1990, 1, 1⟩, []⟩
      = [fmtNotGt joinMsg (⟨1990, 1, 1⟩ : Date) (⟨1990, 1, 1⟩ : Date)] ∧
    checkJoinDate_one ⟨1990, 1, 1⟩ ⟨⟨1990, 1, 1⟩, ⟨1990, 1, 2⟩, []⟩ = [] := by
  refine ⟨fun birthday tree => ?_, by decide, by decide⟩
  by_cases h : birthday < tree.taarich_hitztarfut_mutzar
  · have hle : ¬ tree.taarich_hitztarfut_mutzar ≤ birthday := by
      intro hc
      exact (date_not_lt birthday tree.taarich_hitztarfut_mutzar).mpr hc h
    simp [checkJoinDate_one, assert_gt_spec, h, hle]
  · have hle : tree.taarich_hitztarfut_mutzar ≤ birthday :=
      (date_not_lt birthday tree.taarich_hitztarfut_mutzar).mp h
    simp [checkJoinDate_one, assert_gt_spec, h, hle]

/-- C10. On a most-recent-contribution record whose itemized entry list is
empty, the Last-Contribution Consistency rule always reports the
non-uniform-salary Problem (the salary set is empty, so not a singleton),
and compares the reported total against an itemized sum of zero, adding the
sum-mismatch Problem exactly when the reported total is nonzero. -/
theorem last_hafkada_empty_itemization :
    ∀ (total neto : Rat),
      checkLastHafkada_one ⟨total, neto, []⟩
        = (if (0 : Rat) = total then [] else [fmtEqFail lastSumMsg (0 : Rat) total])
            ++ [lastSalariesMsg []] := by
  intro total neto
  simp [checkLastHafkada_one, assert_eq_spec, assert_spec]

unseal Rat.add Rat.mul Rat.inv Rat.sub in
/-- C3. The Net/Gross Reconciliation rule reports a Problem if and only if
the net last-contribution amount differs from gross minus the two
nil-normalized deductions (an explicit nil sentinel counting as zero); the
comparison reads the first most-recent-contribution record.  In particular,
with gross 1000, insurance 50, fee 20: net 930 yields zero Problems and net
900 yields one Problem citing the compared values. -/
theorem net_gross_reconciliation :
    (∀ (hafkadot : List Hafkada) (shnatiyot : HafkadotShnatiyot)
        (hafrashot : List HafrashaEntry) (first : PerutPirteiHafkadaAchrona)
        (rest : List PerutPirteiHafkadaAchrona) (ins fee : Nilable Rat),
      checkTotalHafkadaParts_one ⟨hafkadot, shnatiyot, hafrashot, first :: rest, ⟨ins, fee⟩⟩
        = some (if first.total_hafkada_achrona
                    = first.total_hafkada - fix_nil ins 0 - fix_nil fee 0 then []
                else [netGrossMsg first.total_hafkada_achrona first.total_hafkada
                        (fix_nil ins 0) (fix_nil fee 0)])) ∧
    checkTotalHafkadaParts_one exNet930 = some [] ∧
    checkTotalHafkadaParts_one exNet900 = some [netGrossMsg 900 1000 50 20] := by
  refine ⟨fun hafkadot shnatiyot hafrashot first rest ins fee => ?_, by decide, by decide⟩
  by_cases h : first.total_hafkada_achrona
      = first.total_hafkada - fix_nil ins 0 - fix_nil fee 0 <;>
    simp [checkTotalHafkadaParts_one, assert_spec, h]

/-! ## Lemmas about the two loops of the Allocation Percentage Bands rule -/

/-- The band-scan loop only appends to the problems it is given. -/
theorem rangeLoop_append (m : SugHafrasha → Option Rat)
    (table : List (SugHafrasha × Rat × Rat)) :
    ∀ problems, rangeLoop m problems table = problems ++ rangeLoop m [] table := by
  induction table with
  | nil => intro problems; simp [rangeLoop]
  | cons head rest ih =>
    intro problems
    obtain ⟨sug, lo, hi⟩ := head
    cases h : m sug with
    | none =>
      simp only [rangeLoop, h]
      rw [ih (report problems (missingSugMsg sug)), ih (report [] (missingSugMsg sug))]
      simp [report]
    | some v =>
      simp only [rangeLoop, h]
      rw [ih (assert_range problems lo v hi (bandMsg sug)),
        ih (assert_range [] lo v hi (bandMsg sug))]
      rw [assert_range_spec, assert_range_spec]
      simp

/-- A regulated category missing from the percentage dict contributes its
missing-category message to the band scan. -/
theorem rangeLoop_missing_mem (m : SugHafrasha → Option Rat)
    (sug : SugHafrasha) (lo hi : Rat) :
    ∀ (table : List (SugHafrasha × Rat × Rat)) (problems : List String),
      (sug, lo, hi) ∈ table → m sug = none →
      missingSugMsg sug ∈ rangeLoop m problems table := by
  intro table
  induction table with
  | nil => intro problems h hnone; simp at h
  | cons head rest ih =>
    intro problems hmem hnone
    obtain ⟨s, slo, shi⟩ := head
    rcases List.mem_cons.mp hmem with heq | htail
    · simp only [Prod.mk.injEq] at heq
      obtain ⟨rfl, rfl, rfl⟩ := heq
      simp only [rangeLoop, hnone]
      rw [rangeLoop_append]
      simp [report]
    · cases h : m s with
      | none => simp only [rangeLoop, h]; exact ih _ htail hnone
      | some v => simp only [rangeLoop, h]; exact ih _ htail hnone

/-- A regulated category whose recorded percentage is below its band
contributes the below-band message to the band scan. -/
theorem rangeLoop_below_mem (m : SugHafrasha → Option Rat)
    (sug : SugHafrasha) (lo hi v : Rat) :
    ∀ (table : List (SugHafrasha × Rat × Rat)) (problems : List String),
      (sug, lo, hi) ∈ table → m sug = some v → v < lo →
      fmtBelow (bandMsg sug) v lo ∈ rangeLoop m problems table := by
  intro table
  induction table with
  | nil => intro problems h hv hlt; simp at h
  | cons head rest ih =>
    intro problems hmem hv hlt
    obtain ⟨s, slo, shi⟩ := head
    rcases List.mem_cons.mp hmem with heq | htail
    · simp only [Prod.mk.injEq] at heq
      obtain ⟨rfl, rfl, rfl⟩ := heq
      simp only [rangeLoop, hv]
      rw [rangeLoop_append, assert_range_spec]
      simp [hlt]
    · cases h : m s with
      | none => simp only [rangeLoop, h]; exact ih _ htail hv hlt
      | some w => simp only [rangeLoop, h]; exact ih _ htail hv hlt

/-- A regulated category whose recorded percentage is above its band (and
not below it) contributes the above-band message to the band scan. -/
theorem rangeLoop_above_mem (m : SugHafrasha → Option Rat)
    (sug : SugHafrasha) (lo hi v : Rat) :
    ∀ (table : List (SugHafrasha × Rat × Rat)) (problems : List String),
      (sug, lo, hi) ∈ table → m sug = some v → ¬ v < lo → hi < v →
      fmtAbove (bandMsg sug) v hi ∈ rangeLoop m problems table := by
  intro table
  induction table with
  | nil => intro problems h hv hnlt hgt; simp at h
  | cons head rest ih =>
    intro problems hmem hv hnlt hgt
    obtain ⟨s, slo, shi⟩ := head
    rcases List.mem_cons.mp hmem with heq | htail
    · simp only [Prod.mk.injEq] at heq
      obtain ⟨rfl, rfl, rfl⟩ := heq
      simp only [rangeLoop, hv]
      rw [rangeLoop_append, assert_range_spec]
      simp [hnlt, hgt]
    · cases h : m s with
      | none => simp only [rangeLoop, h]; exact ih _ htail hv hnlt hgt
      | some w => simp only [rangeLoop, h]; exact ih _ htail hv hnlt hgt

/-- The duplicate-scan loop only appends to the problems it is given. -/
theorem hafrashotLoop_snd_append (entries : List HafrashaEntry) :
    ∀ (m : SugHafrasha → Option Rat) (problems : List String),
      (hafrashotLoop m problems entries).2
        = problems ++ (hafrashotLoop m [] entries).2 := by
  induction entries with
  | nil => intro m problems; simp [hafrashotLoop]
  | cons p rest ih =>
    intro m problems
    simp only [hafrashotLoop]
    rw [ih _ (assert_ problems (m p.sug_hafrasha).isNone (dupSugMsg p.sug_hafrasha)),
      ih _ (assert_ [] (m p.sug_hafrasha).isNone (dupSugMsg p.sug_hafrasha))]
    rw [assert_spec, assert_spec]
    simp

/-- A category seen at least twice (or already recorded and seen again)
contributes its duplicate message to the duplicate scan. -/
theorem hafrashotLoop_dup_mem (sug : SugHafrasha) :
    ∀ (entries : List HafrashaEntry) (m : SugHafrasha → Option Rat)
      (problems : List String),
      (2 ≤ countSug sug entries ∨ ((m sug).isSome ∧ 1 ≤ countSug sug entries)) →
      dupSugMsg sug ∈ (hafrashotLoop m problems entries).2 := by
  intro entries
  induction entries with
  | nil =>
    intro m problems h
    exfalso
    rcases h with h2 | ⟨_, h1⟩
    · simp only [countSug] at h2; omega
    · simp only [countSug] at h1; omega
  | cons p rest ih =>
    intro m problems h
    by_cases hs : p.sug_hafrasha = sug
    · by_cases hm : (m sug).isSome
      · have hfalse : (m p.sug_hafrasha).isNone = false := by
          rw [hs]; cases hmm : m sug with
          | none => rw [hmm] at hm; simp at hm
          | some q => simp
        have hmem : dupSugMsg sug
            ∈ assert_ problems (m p.sug_hafrasha).isNone (dupSugMsg p.sug_hafrasha) := by
          rw [assert_spec, hfalse, hs]
          simp
        simp only [hafrashotLoop]
        rw [hafrashotLoop_snd_append]
        exact List.mem_append_left _ hmem
      · have hnone : m sug = none := Option.not_isSome_iff_eq_none.mp hm
        have h2 : 2 ≤ countSug sug (p :: rest) := by
          rcases h with h2 | ⟨hsome, _⟩
          · exact h2
          · rw [hnone] at hsome; simp at hsome
        have hcount : 1 ≤ countSug sug rest := by
          simp only [countSug, hs, if_pos] at h2; omega
        simp only [hafrashotLoop]
        refine ih _ _ (Or.inr ⟨?_, hcount⟩)
        simp [hs]
    · have hcount : countSug sug (p :: rest) = countSug sug rest := by
        simp [countSug, hs]
      simp only [hafrashotLoop]
      refine ih _ _ ?_
      rcases h with h2 | ⟨hsome, h1⟩
      · exact Or.inl (hcount ▸ h2)
      · refine Or.inr ⟨?_, hcount ▸ h1⟩
        have hs' : ¬ sug = p.sug_hafrasha := fun hcc => hs hcc.symm
        show (if sug = p.sug_hafrasha then some p.achuz_hafrasha else m sug).isSome = true
        rw [if_neg hs']
        exact hsome

/-- The percentage dict records a category exactly when some entry declares
it. -/
theorem hafrashotLoop_fst_none (sug : SugHafrasha) :
    ∀ (entries : List HafrashaEntry) (m : SugHafrasha → Option Rat)
      (problems : List String),
      ((hafrashotLoop m problems entries).1 sug = none ↔
        (m sug = none ∧ sug ∉ entries.map (fun e => e.sug_hafrasha))) := by
  intro entries
  induction entries with
  | nil => intro m problems; simp [hafrashotLoop]
  | cons p rest ih =>
    intro m problems
    simp only [hafrashotLoop]
    rw [ih]
    by_cases hs : sug = p.sug_hafrasha
    · simp [hs]
    · simp only [List.map_cons, List.mem_cons, hs, if_neg hs]
      tauto

/-- The recorded-percentages dict is empty at a category exactly when no
entry declares that category. -/
theorem hafrashotPercentages_none (entries : List HafrashaEntry) (sug : SugHafrasha) :
    hafrashotPercentages entries sug = none ↔
      sug ∉ entries.map (fun e => e.sug_hafrasha) := by
  rw [hafrashotPercentages, hafrashotLoop_fst_none]
  simp

unseal Rat.add Rat.mul Rat.inv Rat.sub in
/-- Every band of the regulatory table has its lower bound at most its
upper bound. -/
theorem ranges_lo_le_hi :
    ∀ p ∈ HAFRASHA_RANGES_PENSION, p.2.1 ≤ p.2.2 := by decide

unseal Rat.add Rat.mul Rat.inv Rat.sub in
/-- C1. For the Allocation Percentage Bands rule: a category declared more
than once yields its duplicate Problem; a regulated category absent from the
entries yields its missing-category Problem; a regulated category whose
recorded percentage falls below (resp. above) its inclusive band yields the
band Problem carrying the violating value.  In particular, the record
declaring severance 7.0, employee 6.5, employer 7.0 yields zero Problems,
and changing severance to 9.0 yields exactly the one Problem citing 9. -/
theorem hafrashot_size_bands :
    (∀ (tree : PirteiTaktziv) (sug : SugHafrasha),
        2 ≤ countSug sug tree.perut_hafrashot_le_polisa →
        dupSugMsg sug ∈ checkHafrashotSize_one tree) ∧
    (∀ (tree : PirteiTaktziv) (sug : SugHafrasha) (lo hi : Rat),
        (sug, lo, hi) ∈ HAFRASHA_RANGES_PENSION →
        sug ∉ tree.perut_hafrashot_le_polisa.map (fun e => e.sug_hafrasha) →
        missingSugMsg sug ∈ checkHafrashotSize_one tree) ∧
    (∀ (tree : PirteiTaktziv) (sug : SugHafrasha) (lo hi v : Rat),
        (sug, lo, hi) ∈ HAFRASHA_RANGES_PENSION →
        hafrashotPercentages tree.perut_hafrashot_le_polisa sug = some v →
        v < lo →
        fmtBelow (bandMsg sug) v lo ∈ checkHafrashotSize_one tree) ∧
    (∀ (tree : PirteiTaktziv) (sug : SugHafrasha) (lo hi v : Rat),
        (sug, lo, hi) ∈ HAFRASHA_RANGES_PENSION →
        hafrashotPercentages tree.perut_hafrashot_le_polisa sug = some v →
        hi < v →
        fmtAbove (bandMsg sug) v hi ∈ checkHafrashotSize_one tree) ∧
    checkHafrashotSize_one exHafrashotOk = [] ∧
    checkHafrashotSize_one exHafrashotBad
      = [fmtAbove (bandMsg SugHafrasha.pitzuim) (9 : Rat) (833/100 : Rat)] := by
  refine ⟨?_, ?_, ?_, ?_, by decide, by decide⟩
  · intro tree sug h2
    simp only [checkHafrashotSize_one]
    rw [rangeLoop_append]
    exact List.mem_append_left _ (hafrashotLoop_dup_mem sug _ _ _ (Or.inl h2))
  · intro tree sug lo hi hmem habs
    exact rangeLoop_missing_mem _ sug lo hi _ _ hmem
      ((hafrashotPercentages_none _ sug).mpr habs)
  · intro tree sug lo hi v hmem hv hlt
    exact rangeLoop_below_mem _ sug lo hi v _ _ hmem hv hlt
  · intro tree sug lo hi v hmem hv hgt
    have hle : lo ≤ hi := ranges_lo_le_hi (sug, lo, hi) hmem
    have hnlt : ¬ v < lo := lt_asymm (lt_of_le_of_lt hle hgt)
    exact rangeLoop_above_mem _ sug lo hi v _ _ hmem hv hnlt hgt

/-- Witness for C1: the record declaring the severance percentage twice
yields the duplicate-category Problem. -/
theorem hafrashot_size_bands_witness :
    dupSugMsg SugHafrasha.pitzuim ∈ checkHafrashotSize_one exHafrashotDup :=
  hafrashot_size_bands.1 exHafrashotDup SugHafrasha.pitzuim (by decide)

/-! ## Lemmas about the per-category sums of the Year-to-Date Totals rule -/

/-- Accumulator form of the per-category sum fold. -/
theorem sumBySug_go (sug : SugHafrasha) :
    ∀ (hafkadot : List Hafkada) (a : Rat),
      hafkadot.foldl
        (fun acc h =>
          if h.sug_hafrasha = sug then acc + h.schum_hafkada_sheshulam else acc) a
        = a + sumBySug hafkadot sug := by
  intro hafkadot
  induction hafkadot with
  | nil => intro a; simp [sumBySug]
  | cons x rest ih =>
    intro a
    simp only [List.foldl_cons, sumBySug]
    rw [ih, ih]
    by_cases h : x.sug_hafrasha = sug <;> simp [h] <;> ring

/-- Unfolding of the per-category sum at a cons cell. -/
theorem sumBySug_cons (x : Hafkada) (rest : List Hafkada) (sug : SugHafrasha) :
    sumBySug (x :: rest) sug
      = (if x.sug_hafrasha = sug then x.schum_hafkada_sheshulam else 0)
          + sumBySug rest sug := by
  simp only [sumBySug, List.foldl_cons]
  rw [sumBySug_go]
  by_cases h : x.sug_hafrasha = sug <;> simp [h, sumBySug]

/-- Perturbing the amount of entry `k` by `d` shifts exactly the sum of that
entry's category by `d` and leaves every other category's sum unchanged. -/
theorem sumBySug_perturb (sug : SugHafrasha) (d : Rat) :
    ∀ (l : List Hafkada) (k : Nat) (h : k < l.length),
      sumBySug (perturbAmount l k d) sug
        = sumBySug l sug + (if l[k].sug_hafrasha = sug then d else 0) := by
  intro l
  induction l with
  | nil => intro k h; simp at h
  | cons x rest ih =>
    intro k h
    cases k with
    | zero =>
      simp only [perturbAmount]
      rw [sumBySug_cons, sumBySug_cons]
      simp only [List.getElem_cons_zero]
      by_cases hs : x.sug_hafrasha = sug <;> simp [hs] <;> ring
    | succ k =>
      simp only [perturbAmount]
      rw [sumBySug_cons, sumBySug_cons, ih k (by simpa using h)]
      simp only [List.getElem_cons_succ]
      ring

/-- Closed form of the Year-to-Date Totals rule: one optional message per
reported total, in source order. -/
theorem checkHafkadotYtdTotal_eq (tree : PirteiTaktziv) :
    checkHafkadotYtdTotal_one tree =
      (if sumBySug tree.perut_hafkadot_metchilat_shana SugHafrasha.pitzuim
          = tree.hafkadot_shnatiyot.total_hafkadot_pitzuim_shana_nochechit then []
       else [fmtEqFail msgPitzuim
              (sumBySug tree.perut_hafkadot_metchilat_shana SugHafrasha.pitzuim)
              tree.hafkadot_shnatiyot.total_hafkadot_pitzuim_shana_nochechit])
      ++ (if sumBySug tree.perut_hafkadot_metchilat_shana SugHafrasha.tagmulim_oved
          = tree.hafkadot_shnatiyot.total_hafkadot_oved_tagmulim_shana_nochechit then []
       else [fmtEqFail msgOved
              (sumBySug tree.perut_hafkadot_metchilat_shana SugHafrasha.tagmulim_oved)
              tree.hafkadot_shnatiyot.total_hafkadot_oved_tagmulim_shana_nochechit])
      ++ (if sumBySug tree.perut_hafkadot_metchilat_shana SugHafrasha.tagmulim_maavid
          = tree.hafkadot_shnatiyot.total_hafkadot_maavid_tagmulim_shana_nochechit then []
       else [fmtEqFail msgMaavid
              (sumBySug tree.perut_hafkadot_metchilat_shana SugHafrasha.tagmulim_maavid)
              tree.hafkadot_shnatiyot.total_hafkadot_maavid_tagmulim_shana_nochechit]) := by
  simp only [checkHafkadotYtdTotal_one]
  rw [assert_eq_spec, assert_eq_spec, assert_eq_spec]
  simp

unseal Rat.add Rat.mul Rat.inv Rat.sub in
/-- Counterexample to C2 as stated: a reconciled contribution-budget record
whose single itemized entry carries the health-fund employee category (8);
perturbing its amount by the nonzero delta 1 still yields zero Problems,
because none of the three reported totals tracks that category. -/
theorem ytd_totals_counterexample :
    checkHafkadotYtdTotal_one exKhTree = [] ∧ (1 : Rat) ≠ 0 ∧
    checkHafkadotYtdTotal_one (perturbTaktziv exKhTree 0 1) = [] :=
  ⟨by decide, by decide, by decide⟩

/-- C2 (amended). If the itemized year-to-date sums by category equal the
three reported totals, the record yields zero Problems; perturbing one
itemized amount by a nonzero delta yields exactly the one Problem naming
the corresponding total when the entry's category is one of the three the
totals track (severance, employee, employer), and zero Problems when it is
a health-fund category. -/
theorem ytd_totals_amended :
    (∀ tree : PirteiTaktziv,
      sumBySug tree.perut_hafkadot_metchilat_shana SugHafrasha.pitzuim
        = tree.hafkadot_shnatiyot.total_hafkadot_pitzuim_shana_nochechit →
      sumBySug tree.perut_hafkadot_metchilat_shana SugHafrasha.tagmulim_oved
        = tree.hafkadot_shnatiyot.total_hafkadot_oved_tagmulim_shana_nochechit →
      sumBySug tree.perut_hafkadot_metchilat_shana SugHafrasha.tagmulim_maavid
        = tree.hafkadot_shnatiyot.total_hafkadot_maavid_tagmulim_shana_nochechit →
      checkHafkadotYtdTotal_one tree = []) ∧
    (∀ (tree : PirteiTaktziv) (k : Nat) (d : Rat)
        (hk : k < tree.perut_hafkadot_metchilat_shana.length),
      sumBySug tree.perut_hafkadot_metchilat_shana SugHafrasha.pitzuim
        = tree.hafkadot_shnatiyot.total_hafkadot_pitzuim_shana_nochechit →
      sumBySug tree.perut_hafkadot_metchilat_shana SugHafrasha.tagmulim_oved
        = tree.hafkadot_shnatiyot.total_hafkadot_oved_tagmulim_shana_nochechit →
      sumBySug tree.perut_hafkadot_metchilat_shana SugHafrasha.tagmulim_maavid
        = tree.hafkadot_shnatiyot.total_hafkadot_maavid_tagmulim_shana_nochechit →
      d ≠ 0 →
      checkHafkadotYtdTotal_one (perturbTaktziv tree k d)
        = perturbedProblems tree.perut_hafkadot_metchilat_shana[k].sug_hafrasha d
            tree.hafkadot_shnatiyot) := by
  constructor
  · intro tree h1 h2 h3
    rw [checkHafkadotYtdTotal_eq, if_pos h1, if_pos h2, if_pos h3]
    simp
  · intro tree k d hk h1 h2 h3 hd
    rw [checkHafkadotYtdTotal_eq]
    have hperut : (perturbTaktziv tree k d).perut_hafkadot_metchilat_shana
        = perturbAmount tree.perut_hafkadot_metchilat_shana k d := rfl
    have htot : (perturbTaktziv tree k d).hafkadot_shnatiyot
        = tree.hafkadot_shnatiyot := rfl
    rw [hperut, htot, sumBySug_perturb _ _ _ _ hk, sumBySug_perturb _ _ _ _ hk,
      sumBySug_perturb _ _ _ _ hk, h1, h2, h3]
    cases hs : tree.perut_hafkadot_metchilat_shana[k].sug_hafrasha <;>
      simp [perturbedProblems, hd, add_right_eq_self]

unseal Rat.add Rat.mul Rat.inv Rat.sub in
/-- Witness for the amended C2: perturbing the single severance entry of a
reconciled record by 1 yields exactly the severance-total Problem. -/
theorem ytd_totals_amended_witness :
    checkHafkadotYtdTotal_one (perturbTaktziv exPitzuimTree 0 1)
      = perturbedProblems SugHafrasha.pitzuim 1 exPitzuimTree.hafkadot_shnatiyot :=
  ytd_totals_amended.2 exPitzuimTree 0 1 (by decide) (by decide) (by decide)
    (by decide) (by decide)

/-- C8. The Per-Entry Percentage Consistency rule guards only the category,
not the salary: on an entry whose category has a regulated band and whose
salary is zero, the unguarded division faults (the embedded rule returns
`none`: the exception propagates and no Problem is reported). -/
theorem ytd_percentage_zero_salary :
    ∀ (tree : Hafkada) (lo hi : Rat),
      hafrashaRange tree.sug_hafrasha = some (lo, hi) →
      tree.sachar_beramat_hafkada = 0 →
      checkHafrashotSizeInHafkadotYtd_one tree = none := by
  intro tree lo hi hr hs
  simp only [checkHafrashotSizeInHafkadotYtd_one]
  rw [hr]
  simp [hs]

unseal Rat.add Rat.mul Rat.inv Rat.sub in
/-- Witness for C8: a severance entry with zero salary makes the rule
fault. -/
theorem ytd_percentage_zero_salary_witness :
    checkHafrashotSizeInHafkadotYtd_one ⟨1, SugHafrasha.pitzuim, 100, 0⟩ = none :=
  ytd_percentage_zero_salary ⟨1, SugHafrasha.pitzuim, 100, 0⟩ 6 (833/100)
    (by decide) (by decide)

/-! ## Lemmas about the traversal loop of `Checker.check` -/

/-- Membership characterization of the traversal loop from an arbitrary
start index: a tuple is produced exactly for a message of the rule run on
the record at the tuple's index. -/
theorem checkRunF_mem_iff {α : Type} (anchor : String)
    (rule : α → Option (List String)) :
    ∀ (recs : List α) (i0 : Nat) (res : List Problem),
      checkRunF anchor rule recs i0 = some res →
      ∀ (a : String) (j : Nat) (m : String),
        ((a, j, m) ∈ res ↔ a = anchor ∧ ∃ (k : Nat) (hk : k < recs.length),
          j = i0 + k ∧ ∃ msgs, rule recs[k] = some msgs ∧ m ∈ msgs) := by
  intro recs
  induction recs with
  | nil =>
    intro i0 res hrun a j m
    simp only [checkRunF] at hrun
    obtain rfl : ([] : List Problem) = res := Option.some.inj hrun
    simp
  | cons r rest ih =>
    intro i0 res hrun a j m
    simp only [checkRunF] at hrun
    cases hr : rule r with
    | none => rw [hr] at hrun; exact absurd hrun (by simp)
    | some msgs =>
      rw [hr] at hrun
      cases hrec : checkRunF anchor rule rest (i0 + 1) with
      | none => rw [hrec] at hrun; exact absurd hrun (by simp)
      | some tail =>
        rw [hrec] at hrun
        obtain rfl : msgs.map (fun m => (anchor, i0, m)) ++ tail = res :=
          Option.some.inj hrun
        constructor
        · intro hmem
          rcases List.mem_append.mp hmem with hmap | htail
          · obtain ⟨m', hm', heq⟩ := List.mem_map.mp hmap
            have ha : anchor = a := congrArg Prod.fst heq
            have hj : i0 = j := congrArg (fun p => p.2.1) heq
            have hmm : m' = m := congrArg (fun p => p.2.2) heq
            subst ha hj hmm
            exact ⟨rfl, 0, by simp, by omega, msgs, by simpa using hr, hm'⟩
          · obtain ⟨ha, k, hk, hj, msgs', hrule, hm⟩ :=
              (ih (i0 + 1) tail hrec a j m).mp htail
            refine ⟨ha, k + 1, by simpa using hk, by omega, msgs', ?_, hm⟩
            simpa using hrule
        · rintro ⟨rfl, k, hk, hj, msgs', hrule, hm⟩
          cases k with
          | zero =>
            apply List.mem_append_left
            have : rule r = some msgs' := by simpa using hrule
            rw [hr] at this
            obtain rfl : msgs = msgs' := Option.some.inj this
            have hj0 : j = i0 := by omega
            subst hj0
            exact List.mem_map.mpr ⟨m, hm, rfl⟩
          | succ k =>
            apply List.mem_append_right
            refine (ih (i0 + 1) tail hrec _ j m).mpr
              ⟨rfl, k, by simpa using hk, by omega, msgs', by simpa using hrule, hm⟩

/-- C5. Every tuple `Checker.check` returns is `(anchor, i, message)` where
`i` is the zero-based position, in the anchor path's record sequence, of
exactly the record whose rule invocation produced the message; the
accumulator is drained and cleared per record, so no message is attached to
any other index. -/
theorem check_problem_indexing :
    ∀ (α : Type) (anchor : String) (rule : α → Option (List String))
      (recs : List α) (res : List Problem),
      checkRunF anchor rule recs 0 = some res →
      ∀ (a : String) (j : Nat) (m : String),
        ((a, j, m) ∈ res ↔ a = anchor ∧ ∃ (hj : j < recs.length)
          (msgs : List String), rule recs[j] = some msgs ∧ m ∈ msgs) := by
  intro α anchor rule recs res hrun a j m
  rw [checkRunF_mem_iff anchor rule recs 0 res hrun a j m]
  constructor
  · rintro ⟨rfl, k, hk, hj, msgs, hrule, hm⟩
    obtain rfl : j = k := by omega
    exact ⟨rfl, hk, msgs, hrule, hm⟩
  · rintro ⟨rfl, hj, msgs, hrule, hm⟩
    exact ⟨rfl, j, hj, by omega, msgs, hrule, hm⟩

/-- Witness for C5: a one-record run attaches the rule's message to index
0. -/
theorem check_problem_indexing_witness :
    ((rootPathTaktziv, 0, joinMsg) : Problem)
      ∈ [((rootPathTaktziv, 0, joinMsg) : Problem)] := by
  have h := check_problem_indexing Nat rootPathTaktziv (fun _ => some [joinMsg])
    [0] [(rootPathTaktziv, 0, joinMsg)] rfl rootPathTaktziv 0 joinMsg
  exact h.mpr ⟨rfl, by decide, [joinMsg], rfl, by simp⟩

/-! ## Ordering lemmas for the full catalogue run -/

/-- Pairwise holds for a mapped list when the relation holds between any
two images. -/
theorem pairwise_map_of_forall {β γ : Type} (R : γ → γ → Prop) (f : β → γ)
    (h : ∀ x y : β, R (f x) (f y)) :
    ∀ l : List β, List.Pairwise R (l.map f) := by
  intro l
  induction l with
  | nil => simp
  | cons x xs ih =>
    simp only [List.map_cons, List.pairwise_cons]
    refine ⟨fun b hb => ?_, ih⟩
    obtain ⟨y, _, rfl⟩ := List.mem_map.mp hb
    exact h x y

/-- Every index the traversal loop produces is at least the start index. -/
theorem checkRunF_idx_ge {α : Type} (anchor : String)
    (rule : α → Option (List String)) :
    ∀ (recs : List α) (i0 : Nat) (res : List Problem),
      checkRunF anchor rule recs i0 = some res →
      ∀ p ∈ res, i0 ≤ p.2.1 := by
  intro recs
  induction recs with
  | nil =>
    intro i0 res hrun p hp
    simp only [checkRunF] at hrun
    obtain rfl : ([] : List Problem) = res := Option.some.inj hrun
    simp at hp
  | cons r rest ih =>
    intro i0 res hrun p hp
    simp only [checkRunF] at hrun
    cases hr : rule r with
    | none => rw [hr] at hrun; exact absurd hrun (by simp)
    | some msgs =>
      rw [hr] at hrun
      cases hrec : checkRunF anchor rule rest (i0 + 1) with
      | none => rw [hrec] at hrun; exact absurd hrun (by simp)
      | some tail =>
        rw [hrec] at hrun
        obtain rfl : msgs.map (fun m => (anchor, i0, m)) ++ tail = res :=
          Option.some.inj hrun
        rcases List.mem_append.mp hp with hmap | htail
        · obtain ⟨m', _, rfl⟩ := List.mem_map.mp hmap
          simp
        · have := ih (i0 + 1) tail hrec p htail
          omega

/-- The record indices the traversal loop produces are nondecreasing. -/
theorem checkRunF_sorted {α : Type} (anchor : String)
    (rule : α → Option (List String)) :
    ∀ (recs : List α) (i0 : Nat) (res : List Problem),
      checkRunF anchor rule recs i0 = some res →
      List.Pairwise recordOrder res := by
  intro recs
  induction recs with
  | nil =>
    intro i0 res hrun
    simp only [checkRunF] at hrun
    obtain rfl : ([] : List Problem) = res := Option.some.inj hrun
    simp
  | cons r rest ih =>
    intro i0 res hrun
    simp only [checkRunF] at hrun
    cases hr : rule r with
    | none => rw [hr] at hrun; exact absurd hrun (by simp)
    | some msgs =>
      rw [hr] at hrun
      cases hrec : checkRunF anchor rule rest (i0 + 1) with
      | none => rw [hrec] at hrun; exact absurd hrun (by simp)
      | some tail =>
        rw [hrec] at hrun
        obtain rfl : msgs.map (fun m => (anchor, i0, m)) ++ tail = res :=
          Option.some.inj hrun
        rw [List.pairwise_append]
        refine ⟨pairwise_map_of_forall recordOrder (fun m => (anchor, i0, m))
          (fun x y => show i0 ≤ i0 from le_refl i0) msgs,
          ih (i0 + 1) tail hrec, ?_⟩
        intro p hp q hq
        obtain ⟨m', _, rfl⟩ := List.mem_map.mp hp
        have hq1 : i0 + 1 ≤ q.2.1 := checkRunF_idx_ge anchor rule rest (i0 + 1) tail hrec q hq
        show i0 ≤ q.2.1
        omega

/-- Splitting of a successful Option bind. -/
theorem opt_bind_some {β γ : Type} (o : Option β) (f : β → Option γ) (b : γ)
    (h : o.bind f = some b) : ∃ a, o = some a ∧ f a = some b := by
  cases o with
  | none => simp at h
  | some a => exact ⟨a, rfl, by simpa using h⟩

/-- C9. A full catalogue run is deterministic (two runs on the same decoded
document return the same ordered list) and the result is exactly the
concatenation, in checker registration order, of the eight checkers'
blocks, the record indices within each block appearing in the anchor
path's record order. -/
theorem all_checks_deterministic_ordered :
    ∀ (doc : Document) (res res2 : List Problem),
      all_checks doc = some res → all_checks doc = some res2 →
      res = res2 ∧
      ∃ r1 r2 r3 r4 r5 r6 r7 r8,
        runCheckLastHafkada doc = some r1 ∧
        runCheckHafkadotYtd doc = some r2 ∧
        runCheckHafkadotYtdTotal doc = some r3 ∧
        runCheckHafrashotSize doc = some r4 ∧
        runCheckHafrashotSizeInHafkadotYtd doc = some r5 ∧
        runCheckTotalHafkadaParts doc = some r6 ∧
        runCheckNechonutDate doc = some r7 ∧
        runCheckJoinDate doc = some r8 ∧
        res = r1 ++ r2 ++ r3 ++ r4 ++ r5 ++ r6 ++ r7 ++ r8 ∧
        List.Pairwise recordOrder r1 ∧ List.Pairwise recordOrder r2 ∧
        List.Pairwise recordOrder r3 ∧ List.Pairwise recordOrder r4 ∧
        List.Pairwise recordOrder r5 ∧ List.Pairwise recordOrder r6 ∧
        List.Pairwise recordOrder r7 ∧ List.Pairwise recordOrder r8 := by
  intro doc res res2 h hh
  refine ⟨Option.some.inj (h.symm.trans hh), ?_⟩
  simp only [all_checks] at h
  obtain ⟨r1, h1, h⟩ := opt_bind_some _ _ _ h
  obtain ⟨r2, h2, h⟩ := opt_bind_some _ _ _ h
  obtain ⟨r3, h3, h⟩ := opt_bind_some _ _ _ h
  obtain ⟨r4, h4, h⟩ := opt_bind_some _ _ _ h
  obtain ⟨r5, h5, h⟩ := opt_bind_some _ _ _ h
  obtain ⟨r6, h6, h⟩ := opt_bind_some _ _ _ h
  obtain ⟨r7, h7, h⟩ := opt_bind_some _ _ _ h
  obtain ⟨r8, h8, h⟩ := opt_bind_some _ _ _ h
  refine ⟨r1, r2, r3, r4, r5, r6, r7, r8, h1, h2, h3, h4, h5, h6, h7, h8,
    (Option.some.inj h).symm,
    checkRunF_sorted _ _ _ _ _ h1, checkRunF_sorted _ _ _ _ _ h2,
    checkRunF_sorted _ _ _ _ _ h3, checkRunF_sorted _ _ _ _ _ h4,
    checkRunF_sorted _ _ _ _ _ h5, checkRunF_sorted _ _ _ _ _ h6,
    checkRunF_sorted _ _ _ _ _ h7, checkRunF_sorted _ _ _ _ _ h8⟩

/-- Witness for C9: the catalogue run on the document with no policy
records. -/
theorem all_checks_deterministic_ordered_witness :
    ([] : List Problem) = ([] : List Problem) ∧
    ∃ r1 r2 r3 r4 r5 r6 r7 r8,
      runCheckLastHafkada emptyDoc = some r1 ∧
      runCheckHafkadotYtd emptyDoc = some r2 ∧
      runCheckHafkadotYtdTotal emptyDoc = some r3 ∧
      runCheckHafrashotSize emptyDoc = some r4 ∧
      runCheckHafrashotSizeInHafkadotYtd emptyDoc = some r5 ∧
      runCheckTotalHafkadaParts emptyDoc = some r6 ∧
      runCheckNechonutDate emptyDoc = some r7 ∧
      runCheckJoinDate emptyDoc = some r8 ∧
      ([] : List Problem) = r1 ++ r2 ++ r3 ++ r4 ++ r5 ++ r6 ++ r7 ++ r8 ∧
      List.Pairwise recordOrder r1 ∧ List.Pairwise recordOrder r2 ∧
      List.Pairwise recordOrder r3 ∧ List.Pairwise recordOrder r4 ∧
      List.Pairwise recordOrder r5 ∧ List.Pairwise recordOrder r6 ∧
      List.Pairwise recordOrder r7 ∧ List.Pairwise recordOrder r8 :=
  all_checks_deterministic_ordered emptyDoc [] [] rfl rfl

end Pension
